import Mathlib

/-!
Shallow embedding of the line-reconstruction core of `redact_extract.py`
(functions `group_words_into_lines`, `build_line_text`,
`extract_lines_with_positions`), with theorems settling the frozen claims.

Conventions of the embedding:
* Python floats are modelled by `ℚ` (exact arithmetic).
* A pdfplumber word dict is modelled by `WordBox`; every field the source
  reads through `dict.get(key, default)` is an `Option`, and the accessor
  functions below reproduce the source's defaults exactly
  (`w.get("top", 0.0)`, `w.get("x1", w.get("x0", 0.0))`,
  `w.get("bottom", top + 10.0)`, `w.get("text", "")`).  The `"size"` field
  is read as `w.get("size", None)` with a `float(...)` try/except, so it is
  an `Option ℚ` directly; `"fontname"` is never read by the core and is
  omitted.
* `int(round(x))` is Python 3 `round`: round half to even (`pyRound`).
* Python's stable sort by key `(top, x0)` (resp. `x0`) is modelled with
  `List.insertionSort` over the corresponding total preorder.
* `build_line_text` on an empty cluster would raise `IndexError` in the
  source (it indexes `line_words[0]`), so its embedding returns `Option`.
-/

/-- A pdfplumber word dictionary, as consumed by the source. -/
structure WordBox where
  text : Option String
  x0 : Option ℚ
  x1 : Option ℚ
  top : Option ℚ
  bottom : Option ℚ
  size : Option ℚ
deriving DecidableEq, Inhabited, Repr

/-- `float(w.get("text", ""))`-style access: `w.get("text", "")`. -/
def WordBox.textv (w : WordBox) : String := w.text.getD ""

/-- `float(w.get("x0", 0.0))`. -/
def WordBox.x0v (w : WordBox) : ℚ := w.x0.getD 0

/-- `float(w.get("x1", w.get("x0", 0.0)))` (also used as `w.get("x1", x0)`
with `x0` already defaulted, which is the same value). -/
def WordBox.x1v (w : WordBox) : ℚ := w.x1.getD (w.x0.getD 0)

/-- `float(w.get("top", 0.0))`. -/
def WordBox.topv (w : WordBox) : ℚ := w.top.getD 0

/-- `float(w.get("bottom", top + 10.0))`. -/
def WordBox.bottomv (w : WordBox) : ℚ := w.bottom.getD (w.topv + 10)

/-- The clustering sort key order: Python's
`sorted(words, key=lambda w: (float(w.get("top",0.0)), float(w.get("x0",0.0))))`,
i.e. the lexicographic order on `(topv, x0v)`. -/
def wle (u v : WordBox) : Prop :=
  u.topv < v.topv ∨ (u.topv = v.topv ∧ u.x0v ≤ v.x0v)

instance : DecidableRel wle := fun u v => by
  unfold wle; infer_instance

instance : IsTotal WordBox wle := by
  constructor
  intro a b
  rcases lt_trichotomy a.topv b.topv with h | h | h
  · exact Or.inl (Or.inl h)
  · rcases le_total a.x0v b.x0v with h2 | h2
    · exact Or.inl (Or.inr ⟨h, h2⟩)
    · exact Or.inr (Or.inr ⟨h.symm, h2⟩)
  · exact Or.inr (Or.inl h)

instance : IsTrans WordBox wle := by
  constructor
  rintro a b c (hab | ⟨hab, hab2⟩) (hbc | ⟨hbc, hbc2⟩)
  · exact Or.inl (hab.trans hbc)
  · exact Or.inl (hbc ▸ hab)
  · exact Or.inl (hab ▸ hbc)
  · exact Or.inr ⟨hab.trans hbc, hab2.trans hbc2⟩

/-- The line-synthesis sort key: `sorted(line_words, key=lambda w: float(w.get("x0", 0.0)))`. -/
def xle (u v : WordBox) : Prop := u.x0v ≤ v.x0v

instance : DecidableRel xle := fun u v => by
  unfold xle; infer_instance

instance : IsTotal WordBox xle := ⟨fun a b => le_total a.x0v b.x0v⟩

instance : IsTrans WordBox xle := ⟨fun _ _ _ h h' => le_trans h h'⟩

/-- The floor of a rational, written so that it evaluates by kernel
reduction (`Rat.floor_def` identifies it with `⌊q⌋`). -/
def ratFloor (q : ℚ) : ℤ := q.num / q.den

/-- Python 3 `round` to an integer: round half to even. -/
def pyRound (q : ℚ) : ℤ :=
  if q - ratFloor q < 1 / 2 then ratFloor q
  else if 1 / 2 < q - ratFloor q then ratFloor q + 1
  else if ratFloor q % 2 = 0 then ratFloor q else ratFloor q + 1

/-- `" " * n` for a Python `int` `n` (negative repetition yields `""`). -/
def spaces (n : ℤ) : String := String.mk (List.replicate n.toNat ' ')

/-- The separator string appended before a subsequent word in
`build_line_text` (source lines 104–115): with `gap = x0 - prev_x1`,
if `gap > 0` append `" " * max(min_spaces, int(round(gap / max(0.5, space_unit_pts))))`,
else `" "` when `gap > -space_unit_pts * 0.3` and `""` otherwise. -/
def sepOf (space_unit_pts : ℚ) (min_spaces : ℤ) (gap : ℚ) : String :=
  if 0 < gap then
    spaces (max min_spaces (pyRound (gap / max (1 / 2) space_unit_pts)))
  else if -(space_unit_pts * (3 / 10)) < gap then " " else ""

/-- State of the text-assembly loop of `build_line_text`: the accumulated
text (Python accumulates a `parts` list and joins it at the end, which
builds the same string), and the `prev_x1` / `last_x1` running maxima. -/
structure LoopState where
  acc : String
  prev_x1 : ℚ
  last_x1 : ℚ
deriving Repr

/-- One iteration of the `for w in line_words[1:]` loop of `build_line_text`. -/
def lineStep (space_unit_pts : ℚ) (min_spaces : ℤ) (st : LoopState) (w : WordBox) : LoopState :=
  let x1 := w.x1.getD w.x0v
  let gap := w.x0v - st.prev_x1
  { acc := st.acc ++ sepOf space_unit_pts min_spaces gap ++ w.textv
    prev_x1 := max st.prev_x1 x1
    last_x1 := max st.last_x1 x1 }

/-- The 5-tuple `(text, x0, x1, top, font_size_est)` returned by `build_line_text`. -/
structure LineOut where
  text : String
  x0 : ℚ
  x1 : ℚ
  top : ℚ
  fontSize : ℚ
deriving DecidableEq, Repr

/-- `build_line_text(line_words, space_unit_pts, min_spaces)` (source lines
48–121).  Returns `none` for an empty cluster, where the source would raise
`IndexError` on `line_words[0]`. -/
def build_line_text (line_words : List WordBox) (space_unit_pts : ℚ)
    (min_spaces : ℤ) : Option LineOut :=
  match List.insertionSort xle line_words with
  | [] => none
  | w :: rest =>
    let sorted := w :: rest
    let sizes := sorted.filterMap (·.size)
    let font_size : ℚ :=
      if sizes ≠ [] then
        (List.insertionSort (· ≤ ·) sizes).getD (sizes.length / 2) 0
      else
        let hs := sorted.map (fun v => max 6 (v.bottomv - v.topv))
        (List.insertionSort (· ≤ ·) hs).getD (hs.length / 2) 0
    let top_med :=
      (List.insertionSort (· ≤ ·) (sorted.map (·.topv))).getD (sorted.length / 2) 0
    let st := rest.foldl (lineStep space_unit_pts min_spaces)
      ⟨w.textv, w.x1v, w.x1v⟩
    some ⟨st.acc, w.x0v, st.last_x1, top_med, font_size⟩

/-- State of the clustering loop of `group_words_into_lines`:
closed lines, the current cluster, and `current_top` (the drifting mean). -/
def groupStep (line_tol : ℚ) (st : List (List WordBox) × List WordBox × ℚ)
    (w : WordBox) : List (List WordBox) × List WordBox × ℚ :=
  let (lines, current, current_top) := st
  if |w.topv - current_top| ≤ line_tol then
    (lines, current ++ [w],
      (current_top * current.length + w.topv) / (current.length + 1))
  else
    (lines ++ [current], [w], w.topv)

/-- `group_words_into_lines(words, line_tol)` (source lines 7–45): sort by
`(top, x0)`, then sweep once, keeping a word in the current cluster iff its
top is within `line_tol` of the running mean of the cluster's tops. -/
def group_words_into_lines (words : List WordBox) (line_tol : ℚ) :
    List (List WordBox) :=
  match List.insertionSort wle words with
  | [] => []
  | w :: ws =>
    let st := ws.foldl (groupStep line_tol) ([], [w], w.topv)
    st.1 ++ [st.2.1]

/-- The per-page body of `extract_lines_with_positions` (source lines
146–155): cluster the page's words, build each line, and keep
`(line_text, x0, top, font_size)` for the lines whose text is non-blank
(`if line_text.strip():`). -/
def extract_lines_page (words : List WordBox) (line_tol : ℚ)
    (space_unit_pts : ℚ) (min_spaces : ℤ) : List (String × ℚ × ℚ × ℚ) :=
  (group_words_into_lines words line_tol).filterMap fun lw =>
    (build_line_text lw space_unit_pts min_spaces).bind fun r =>
      if r.text.trim = "" then none else some (r.text, r.x0, r.top, r.fontSize)

/-- `xs.foldl max q`: the maximum of `q` and the elements of `xs`. -/
def runningMax (q : ℚ) (xs : List ℚ) : ℚ := xs.foldl max q

/-- The spec's `runningRightEdge`: the maximum right edge (`x1`) seen among
the first word and all subsequent words processed so far in the line,
initialized to the first word's `x1`. -/
def runningRightEdge (w : WordBox) (l : List WordBox) : ℚ :=
  runningMax w.x1v (l.map (·.x1v))

/-- Line text as described by the spec (a second definition following the
spec's words, to be compared with `build_line_text`): start with the first
word's text; before the `i`-th subsequent word insert the separator
determined by `gap = word.x0 - runningRightEdge`, where `runningRightEdge`
is the maximum `x1` over all words of the line processed so far. -/
def specLineText (space_unit_pts : ℚ) (min_spaces : ℤ) (w : WordBox)
    (rest : List WordBox) : String :=
  w.textv ++ String.join ((List.range rest.length).map fun i =>
    sepOf space_unit_pts min_spaces
        ((rest.getD i default).x0v - runningRightEdge w (rest.take i)) ++
      (rest.getD i default).textv)

/-- Numeric sort used by the source for medians (`sorted(...)`). -/
def sortedRat (xs : List ℚ) : List ℚ := List.insertionSort (· ≤ ·) xs

/-- The median as the source computes it: the element of the sorted
sequence at index `len // 2` (the upper-middle index for even lengths). -/
def medianCode (xs : List ℚ) : ℚ := (sortedRat xs).getD (xs.length / 2) 0

/-- The median under the tie-break asserted by the claim: the element of
the sorted sequence at the lower-middle index `(len - 1) // 2`. -/
def lowerMiddleMedian (xs : List ℚ) : ℚ :=
  (sortedRat xs).getD ((xs.length - 1) / 2) 0

/-- The explicit font sizes present in a cluster, in cluster order. -/
def sizesOf (ws : List WordBox) : List ℚ := ws.filterMap (·.size)

/-- Mean of a list of rationals (`0` for the empty list). -/
def cmean (xs : List ℚ) : ℚ := xs.sum / (xs.length : ℚ)

/-- Abstract clustering state used to count clusters: the number of
already-closed clusters and the tops of the current cluster. -/
structure CState where
  closed : ℕ
  cur : List ℚ
deriving Repr

/-- One clustering decision on the next top `t`: extend the current
cluster when `|t - mean| ≤ tol`, otherwise close it and start afresh. -/
def cstep (tol : ℚ) (s : CState) (t : ℚ) : CState :=
  if |t - cmean s.cur| ≤ tol then ⟨s.closed, s.cur ++ [t]⟩ else ⟨s.closed + 1, [t]⟩

/-- Run the abstract clustering over a list of tops. -/
def crun (tol : ℚ) (s : CState) (ts : List ℚ) : CState := ts.foldl (cstep tol) s

/-- Number of clusters produced on a (sorted) list of tops. -/
def countClusters (tol : ℚ) : List ℚ → ℕ
  | [] => 0
  | t :: ts => (crun tol ⟨0, [t]⟩ ts).closed + 1

lemma insertionSort_eq_nil_iff {α : Type} {r : α → α → Prop} [DecidableRel r]
    {l : List α} : List.insertionSort r l = [] ↔ l = [] := by
  constructor
  · intro h
    have hp := List.perm_insertionSort r l
    rw [h] at hp
    exact hp.symm.eq_nil
  · rintro rfl
    rfl

lemma groupStep_flatten (tol : ℚ) :
    ∀ (ws : List WordBox) (lines : List (List WordBox))
      (current : List WordBox) (ct : ℚ),
      ((ws.foldl (groupStep tol) (lines, current, ct)).1).flatten ++
          (ws.foldl (groupStep tol) (lines, current, ct)).2.1
        = lines.flatten ++ current ++ ws := by
  intro ws
  induction ws with
  | nil => intro lines current ct; simp
  | cons w ws ih =>
    intro lines current ct
    simp only [List.foldl_cons, groupStep]
    split
    · rw [ih]
      simp
    · rw [ih]
      simp

lemma groupStep_nonempty (tol : ℚ) :
    ∀ (ws : List WordBox) (lines : List (List WordBox))
      (current : List WordBox) (ct : ℚ),
      (∀ c ∈ lines, c ≠ []) → current ≠ [] →
      (∀ c ∈ (ws.foldl (groupStep tol) (lines, current, ct)).1, c ≠ []) ∧
        (ws.foldl (groupStep tol) (lines, current, ct)).2.1 ≠ [] := by
  intro ws
  induction ws with
  | nil => intro lines current ct h1 h2; exact ⟨h1, h2⟩
  | cons w ws ih =>
    intro lines current ct h1 h2
    simp only [List.foldl_cons, groupStep]
    split
    · exact ih _ _ _ h1 (by simp)
    · refine ih _ _ _ ?_ (by simp)
      intro c hc
      rcases List.mem_append.mp hc with h | h
      · exact h1 c h
      · rw [List.mem_singleton.mp h]; exact h2

lemma build_line_text_isSome (c : List WordBox) (su : ℚ) (m : ℤ)
    (hc : c ≠ []) : (build_line_text c su m).isSome := by
  unfold build_line_text
  cases hs : List.insertionSort xle c with
  | nil => exact absurd (insertionSort_eq_nil_iff.mp hs) hc
  | cons w rest => simp

/-- C5: for every word list and tolerance, the concatenation of the
clusters produced by `group_words_into_lines` is a permutation of the
input list: every word appears in exactly one cluster, exactly once. -/
theorem c5_clustering_coverage (ws : List WordBox) (tol : ℚ) :
    ((group_words_into_lines ws tol).flatten).Perm ws := by
  unfold group_words_into_lines
  cases hs : List.insertionSort wle ws with
  | nil =>
    have hws : ws = [] := by
      have hp := List.perm_insertionSort wle ws
      rw [hs] at hp
      exact hp.symm.eq_nil
    subst hws
    rfl
  | cons w rest =>
    have hperm : (w :: rest).Perm ws := by
      have hp := List.perm_insertionSort wle ws
      rwa [hs] at hp
    have h := groupStep_flatten tol rest [] [w] w.topv
    simp only [List.flatten_nil, List.nil_append, List.singleton_append] at h
    simpa [List.flatten_append, h] using hperm

/-- C9: every cluster returned by `group_words_into_lines` is non-empty,
and consequently `build_line_text` succeeds on it (its embedding returns
`some`; the source's `line_words[0]` and median indexing are in bounds). -/
theorem c9_clusters_nonempty (ws : List WordBox) (tol su : ℚ) (m : ℤ)
    (c : List WordBox) (hc : c ∈ group_words_into_lines ws tol) :
    c ≠ [] ∧ (build_line_text c su m).isSome := by
  have hne : c ≠ [] := by
    revert hc
    unfold group_words_into_lines
    cases hs : List.insertionSort wle ws with
    | nil => intro hc; exact absurd hc (by simp)
    | cons w rest =>
      intro hc
      have h := groupStep_nonempty tol rest [] [w] w.topv (by simp) (by simp)
      rcases List.mem_append.mp hc with hmem | hmem
      · exact h.1 c hmem
      · rw [List.mem_singleton.mp hmem]; exact h.2
  exact ⟨hne, build_line_text_isSome c su m hne⟩

/-- Witness for C9 at a concrete input. -/
theorem c9_clusters_nonempty_witness :
    [⟨some "hi", some 0, some 1, some 0, none, none⟩] ≠ ([] : List WordBox) ∧
      (build_line_text [⟨some "hi", some 0, some 1, some 0, none, none⟩]
        3 1).isSome :=
  c9_clusters_nonempty [⟨some "hi", some 0, some 1, some 0, none, none⟩]
    2 3 1 [⟨some "hi", some 0, some 1, some 0, none, none⟩]
    (by with_unfolding_all decide)

/-- C8: a page with an empty word list yields zero clusters and
contributes an empty sequence of reconstructed lines; both functions are
total here, so no error can arise. -/
theorem c8_empty_page (line_tol space_unit : ℚ) (min_spaces : ℤ) :
    group_words_into_lines [] line_tol = [] ∧
      extract_lines_page [] line_tol space_unit min_spaces = [] :=
  ⟨rfl, rfl⟩

/-- C7: every entry of a page's output has text that is non-empty after
trimming whitespace; an all-whitespace assembled line contributes nothing. -/
theorem c7_no_blank_lines (ws : List WordBox) (tol su : ℚ) (m : ℤ)
    (e : String × ℚ × ℚ × ℚ) (he : e ∈ extract_lines_page ws tol su m) :
    e.1.trim ≠ "" := by
  unfold extract_lines_page at he
  rcases List.mem_filterMap.mp he with ⟨lw, _, hf⟩
  rcases Option.bind_eq_some.mp hf with ⟨r, _, hif⟩
  by_cases ht : r.text.trim = ""
  · rw [if_pos ht] at hif
    exact absurd hif (by simp)
  · rw [if_neg ht] at hif
    have : e.1 = r.text := by
      rw [← Option.some_inj.mp hif]
    rwa [this]

/-- Witness for C7 at a concrete input. -/
theorem c7_no_blank_lines_witness :
    ("Hello       World", (100 : ℚ), (50 : ℚ), (10 : ℚ)).1.trim ≠ "" :=
  c7_no_blank_lines
    [⟨some "Hello", some 100, some 140, some 50, none, none⟩,
     ⟨some "World", some 160, some 200, some 50, none, none⟩] 2 3 1
    ("Hello       World", (100 : ℚ), (50 : ℚ), (10 : ℚ))
    (by with_unfolding_all decide)

/-- C6: on the two-word scenario (`"Hello"` at `x0=100, x1=140, top=50`,
`"World"` at `x0=160, x1=200, top=50`) with `lineTol=2`, `spaceUnitPts=3`,
`minSpaces=1`, clustering yields one cluster with both words and the page
output is one line whose text is `"Hello"`, then exactly `7` spaces
(`gap = 20`, `max(1, round(20/3)) = 7`), then `"World"`. -/
theorem c6_scenario1 :
    group_words_into_lines
        [⟨some "Hello", some 100, some 140, some 50, none, none⟩,
         ⟨some "World", some 160, some 200, some 50, none, none⟩] 2
      = [[⟨some "Hello", some 100, some 140, some 50, none, none⟩,
          ⟨some "World", some 160, some 200, some 50, none, none⟩]] ∧
    extract_lines_page
        [⟨some "Hello", some 100, some 140, some 50, none, none⟩,
         ⟨some "World", some 160, some 200, some 50, none, none⟩] 2 3 1
      = [("Hello" ++ spaces 7 ++ "World", 100, 50, 10)] ∧
    (160 : ℚ) - 140 = 20 ∧ max (1 : ℤ) (pyRound (20 / 3)) = 7 := by
  with_unfolding_all decide

lemma strJoin_cons (a : String) (L : List String) :
    String.join (a :: L) = a ++ String.join L := by
  apply String.ext
  simp [String.join_eq]

lemma spaces_length (n : ℤ) : (spaces n).length = n.toNat := by
  simp [spaces, String.length]

lemma foldl_lineStep_acc (su : ℚ) (m : ℤ) :
    ∀ (rest : List WordBox) (acc : String) (q lx : ℚ),
      (rest.foldl (lineStep su m) ⟨acc, q, lx⟩).acc
        = acc ++ String.join ((List.range rest.length).map fun i =>
            sepOf su m ((rest.getD i default).x0v -
                runningMax q ((rest.take i).map (·.x1v))) ++
              (rest.getD i default).textv) := by
  intro rest
  induction rest with
  | nil => intro acc q lx; simp [String.join]
  | cons v l ih =>
    intro acc q lx
    simp only [List.foldl_cons, lineStep]
    rw [ih]
    rw [List.length_cons, List.range_succ_eq_map, List.map_cons, List.map_map,
      strJoin_cons]
    simp only [Function.comp_def, Nat.succ_eq_add_one, List.getD_cons_zero,
      List.getD_cons_succ, List.take_zero, List.take_succ_cons, List.map_nil,
      List.map_cons, runningMax, List.foldl_cons, List.foldl_nil,
      WordBox.x1v, WordBox.x0v]
    rw [← String.append_assoc, ← String.append_assoc]

/-- C1: for every cluster whose `x0`-sorted form is `w :: rest` and all
parameters, the text built by `build_line_text` equals the spec's closed
form `specLineText`: before the `i`-th subsequent word the separator is
determined by `gap = word.x0 - runningRightEdge` with `runningRightEdge`
the maximum `x1` over all words processed so far (initialized to the first
word's `x1`); `sepOf` inserts exactly
`max(minSpaces, round(gap / max(0.5, spaceUnitPts)))` spaces when
`gap > 0`, one space when `0 ≥ gap > -spaceUnitPts * 0.3`, else none; and
whenever `gap > 0` at least `minSpaces` spaces are inserted. -/
theorem c1_spacing_refinement (ws : List WordBox) (su : ℚ) (m : ℤ)
    (w : WordBox) (rest : List WordBox)
    (hsort : List.insertionSort xle ws = w :: rest) :
    ∃ r, build_line_text ws su m = some r ∧
      r.text = specLineText su m w rest ∧
      ∀ i, i < rest.length →
        0 < (rest.getD i default).x0v - runningRightEdge w (rest.take i) →
        m.toNat ≤ (sepOf su m
          ((rest.getD i default).x0v - runningRightEdge w (rest.take i))).length := by
  unfold build_line_text
  rw [hsort]
  refine ⟨_, rfl, ?_, ?_⟩
  · show (rest.foldl (lineStep su m) ⟨w.textv, w.x1v, w.x1v⟩).acc
      = specLineText su m w rest
    rw [foldl_lineStep_acc]
    unfold specLineText runningRightEdge
    rfl
  · intro i hi hpos
    unfold sepOf
    rw [if_pos hpos, spaces_length]
    exact Int.toNat_le_toNat (le_max_left _ _)

/-- Witness for C1 at the two-word scenario. -/
theorem c1_spacing_refinement_witness :
    ∃ r, build_line_text
        [⟨some "Hello", some 100, some 140, some 50, none, none⟩,
         ⟨some "World", some 160, some 200, some 50, none, none⟩] 3 1
      = some r ∧
      r.text = specLineText 3 1
        ⟨some "Hello", some 100, some 140, some 50, none, none⟩
        [⟨some "World", some 160, some 200, some 50, none, none⟩] ∧
      ∀ i, i < [(⟨some "World", some 160, some 200, some 50, none, none⟩ :
            WordBox)].length →
        0 < ([(⟨some "World", some 160, some 200, some 50, none, none⟩ :
              WordBox)].getD i default).x0v -
            runningRightEdge
              ⟨some "Hello", some 100, some 140, some 50, none, none⟩
              ([(⟨some "World", some 160, some 200, some 50, none, none⟩ :
                WordBox)].take i) →
        (1 : ℤ).toNat ≤ (sepOf 3 1
          (([(⟨some "World", some 160, some 200, some 50, none, none⟩ :
              WordBox)].getD i default).x0v -
            runningRightEdge
              ⟨some "Hello", some 100, some 140, some 50, none, none⟩
              ([(⟨some "World", some 160, some 200, some 50, none, none⟩ :
                WordBox)].take i))).length :=
  c1_spacing_refinement
    [⟨some "Hello", some 100, some 140, some 50, none, none⟩,
     ⟨some "World", some 160, some 200, some 50, none, none⟩] 3 1
    ⟨some "Hello", some 100, some 140, some 50, none, none⟩
    [⟨some "World", some 160, some 200, some 50, none, none⟩]
    (by with_unfolding_all decide)

/-- C10: with `minSpaces = 0`, a positive gap whose rounded space count is
`0` gets zero spaces (texts concatenated directly), while a slightly
negative gap in `(-spaceUnitPts * 0.3, 0]` still gets exactly one space,
so the inserted-space count is not monotone in the gap. -/
theorem c10_zero_minspaces_nonmonotone (u g1 g2 : ℚ)
    (hg2pos : 0 < g2) (hround : pyRound (g2 / max (1 / 2) u) = 0)
    (hg1a : -(u * (3 / 10)) < g1) (hg1b : g1 ≤ 0) :
    sepOf u 0 g2 = "" ∧ sepOf u 0 g1 = " " ∧ g1 < g2 ∧
      (sepOf u 0 g2).length < (sepOf u 0 g1).length := by
  have h2 : sepOf u 0 g2 = "" := by
    unfold sepOf
    rw [if_pos hg2pos, hround]
    rfl
  have h1 : sepOf u 0 g1 = " " := by
    unfold sepOf
    rw [if_neg (not_lt.2 hg1b), if_pos hg1a]
  refine ⟨h2, h1, lt_of_le_of_lt hg1b hg2pos, ?_⟩
  rw [h1, h2]
  decide

/-- Witness for C10 at `spaceUnitPts = 3`, gaps `2/5` and `-1/2`. -/
theorem c10_zero_minspaces_nonmonotone_witness :
    sepOf 3 0 (2 / 5) = "" ∧ sepOf 3 0 (-1 / 2) = " " ∧
      (-1 / 2 : ℚ) < 2 / 5 ∧
      (sepOf 3 0 (2 / 5)).length < (sepOf 3 0 (-1 / 2)).length :=
  c10_zero_minspaces_nonmonotone 3 (-1 / 2) (2 / 5)
    (by with_unfolding_all decide) (by with_unfolding_all decide)
    (by with_unfolding_all decide) (by with_unfolding_all decide)

/-- Counterexample to C3: on a two-word cluster with sizes `[10, 20]` and
tops `[50, 60]`, the source's medians pick `20` and `60` — the element at
index `len // 2`, the upper-middle index — not the lower-middle elements
`10` and `50` the claim asserts. -/
theorem c3_counterexample :
    (build_line_text
        [⟨some "a", some 0, some 1, some 50, none, some 10⟩,
         ⟨some "b", some 2, some 3, some 60, none, some 20⟩] 3 1).map
        (fun r => (r.fontSize, r.top))
      = some (20, 60) ∧
    lowerMiddleMedian (sizesOf
        [⟨some "a", some 0, some 1, some 50, none, some 10⟩,
         ⟨some "b", some 2, some 3, some 60, none, some 20⟩]) = 10 ∧
    lowerMiddleMedian
        ([⟨some "a", some 0, some 1, some 50, none, some 10⟩,
          (⟨some "b", some 2, some 3, some 60, none, some 20⟩ : WordBox)].map
          (·.topv)) = 50 ∧
    ((20 : ℚ), (60 : ℚ)) ≠ ((10 : ℚ), (50 : ℚ)) := by
  with_unfolding_all decide

lemma insertionSortRat_congr {l1 l2 : List ℚ} (h : l1.Perm l2) :
    List.insertionSort (· ≤ ·) l1 = List.insertionSort (· ≤ ·) l2 :=
  List.eq_of_perm_of_sorted
    ((List.perm_insertionSort _ l1).trans
      (h.trans (List.perm_insertionSort _ l2).symm))
    (List.sorted_insertionSort _ l1) (List.sorted_insertionSort _ l2)

/-- C3 amended: the medians for the representative font size (over the
present sizes) and the representative top (over the tops) select the
element at index `len // 2` of the sorted sequence — the upper-middle
index when the length is even. -/
theorem c3_amended_upper_middle (ws : List WordBox) (su : ℚ) (m : ℤ)
    (w : WordBox) (rest : List WordBox)
    (hsort : List.insertionSort xle ws = w :: rest)
    (hsz : sizesOf ws ≠ []) :
    ∃ r, build_line_text ws su m = some r ∧
      r.fontSize = medianCode (sizesOf ws) ∧
      r.top = medianCode (ws.map (·.topv)) := by
  have hperm : (w :: rest).Perm ws := by
    rw [← hsort]
    exact List.perm_insertionSort xle ws
  have hpermsz : ((w :: rest).filterMap (·.size)).Perm (sizesOf ws) :=
    hperm.filterMap (·.size)
  have hsz' : (w :: rest).filterMap (·.size) ≠ [] := by
    intro h0
    rw [h0] at hpermsz
    exact hsz hpermsz.nil_eq.symm
  unfold build_line_text
  rw [hsort]
  refine ⟨_, rfl, ?_, ?_⟩
  · show (if ((w :: rest).filterMap (·.size)) ≠ [] then _ else _) = _
    rw [if_pos hsz']
    unfold medianCode sortedRat
    rw [insertionSortRat_congr hpermsz, hpermsz.length_eq]
  · show (List.insertionSort (· ≤ ·) ((w :: rest).map (·.topv))).getD
        ((w :: rest).length / 2) 0 = _
    unfold medianCode sortedRat
    rw [insertionSortRat_congr (hperm.map (·.topv)), hperm.length_eq,
      List.length_map]

/-- Witness for the amended C3 at the two-word cluster above. -/
theorem c3_amended_upper_middle_witness :
    ∃ r, build_line_text
        [⟨some "a", some 0, some 1, some 50, none, some 10⟩,
         ⟨some "b", some 2, some 3, some 60, none, some 20⟩] 3 1 = some r ∧
      r.fontSize = medianCode (sizesOf
        [⟨some "a", some 0, some 1, some 50, none, some 10⟩,
         ⟨some "b", some 2, some 3, some 60, none, some 20⟩]) ∧
      r.top = medianCode
        ([⟨some "a", some 0, some 1, some 50, none, some 10⟩,
          (⟨some "b", some 2, some 3, some 60, none, some 20⟩ : WordBox)].map
          (·.topv)) :=
  c3_amended_upper_middle
    [⟨some "a", some 0, some 1, some 50, none, some 10⟩,
     ⟨some "b", some 2, some 3, some 60, none, some 20⟩] 3 1
    ⟨some "a", some 0, some 1, some 50, none, some 10⟩
    [⟨some "b", some 2, some 3, some 60, none, some 20⟩]
    (by with_unfolding_all decide) (by with_unfolding_all decide)

lemma getD_map_of_lt (f : ℚ → ℚ) (l : List ℚ) (k : ℕ) (hk : k < l.length) :
    (l.map f).getD k 0 = f (l.getD k 0) := by
  have h1 : l[k]? = some l[k] := List.getElem?_eq_getElem hk
  simp [List.getD_eq_getElem?_getD, List.getElem?_map, h1]

lemma insertionSortRat_map_mono (f : ℚ → ℚ) (hf : Monotone f) (xs : List ℚ) :
    List.insertionSort (· ≤ ·) (xs.map f)
      = (List.insertionSort (· ≤ ·) xs).map f :=
  List.eq_of_perm_of_sorted
    ((List.perm_insertionSort _ _).trans
      (((List.perm_insertionSort (· ≤ ·) xs).map f).symm))
    (List.sorted_insertionSort _ _)
    (List.Pairwise.map f (fun _ _ h => hf h)
      (List.sorted_insertionSort (· ≤ ·) xs))

/-- C4: on a non-empty cluster where no word provides a font size and all
words have numeric `top ≤ bottom`, the resulting font size is the median
of the words' bounding-box heights `bottom - top`, floored at `6.0`.  (The
source floors each height before taking the median; this commutes.) -/
theorem c4_fontsize_fallback (ws : List WordBox) (su : ℚ) (m : ℤ)
    (hne : ws ≠ []) (hnosize : ∀ w ∈ ws, w.size = none)
    (_hnumeric : ∀ w ∈ ws, w.top.isSome ∧ w.bottom.isSome ∧ w.topv ≤ w.bottomv) :
    ∃ r, build_line_text ws su m = some r ∧
      r.fontSize = max 6 (medianCode (ws.map (fun v => v.bottomv - v.topv))) := by
  cases hsort : List.insertionSort xle ws with
  | nil => exact absurd (insertionSort_eq_nil_iff.mp hsort) hne
  | cons w rest =>
    have hperm : (w :: rest).Perm ws := by
      rw [← hsort]
      exact List.perm_insertionSort xle ws
    have hszeq : (w :: rest).filterMap (·.size) = [] := by
      rw [List.filterMap_eq_nil_iff]
      intro a ha
      exact hnosize a (hperm.subset ha)
    unfold build_line_text
    rw [hsort]
    refine ⟨_, rfl, ?_⟩
    show (if ((w :: rest).filterMap (·.size)) ≠ [] then _ else _) = _
    rw [if_neg (by rw [hszeq]; exact fun hc => hc rfl)]
    show (List.insertionSort (· ≤ ·)
        ((w :: rest).map (fun v => max 6 (v.bottomv - v.topv)))).getD
        (((w :: rest).map (fun v => max 6 (v.bottomv - v.topv))).length / 2) 0
      = max 6 (medianCode (ws.map (fun v => v.bottomv - v.topv)))
    have hmono : Monotone (fun q : ℚ => max 6 q) :=
      fun _ _ hab => max_le_max le_rfl hab
    have hfact : (fun v : WordBox => max 6 (v.bottomv - v.topv))
        = (fun q : ℚ => max 6 q) ∘ (fun v : WordBox => v.bottomv - v.topv) := rfl
    rw [hfact, ← List.map_map, insertionSortRat_map_mono _ hmono,
      List.length_map, List.length_map]
    have hk : (w :: rest).length / 2 <
        (List.insertionSort (· ≤ ·)
          ((w :: rest).map (fun v => v.bottomv - v.topv))).length := by
      rw [List.length_insertionSort, List.length_map]
      exact Nat.div_lt_self (Nat.succ_pos _) one_lt_two
    rw [getD_map_of_lt _ _ _ hk]
    unfold medianCode sortedRat
    rw [insertionSortRat_congr (hperm.map (fun v => v.bottomv - v.topv)),
      List.length_map, hperm.length_eq]

/-- Witness for C4: three words without sizes, heights `12, 3, 3`; the
median height is `3` and the resulting font size is `max 6 3 = 6`. -/
theorem c4_fontsize_fallback_witness :
    ∃ r, build_line_text
        [⟨some "a", some 0, some 1, some 40, some 52, none⟩,
         ⟨some "b", some 2, some 3, some 41, some 44, none⟩,
         ⟨some "c", some 4, some 5, some 39, some 42, none⟩] 3 1 = some r ∧
      r.fontSize = max 6 (medianCode
        ([⟨some "a", some 0, some 1, some 40, some 52, none⟩,
          ⟨some "b", some 2, some 3, some 41, some 44, none⟩,
          (⟨some "c", some 4, some 5, some 39, some 42, none⟩ : WordBox)].map
          (fun v => v.bottomv - v.topv))) :=
  c4_fontsize_fallback
    [⟨some "a", some 0, some 1, some 40, some 52, none⟩,
     ⟨some "b", some 2, some 3, some 41, some 44, none⟩,
     ⟨some "c", some 4, some 5, some 39, some 42, none⟩] 3 1
    (by with_unfolding_all decide) (by with_unfolding_all decide)
    (by with_unfolding_all decide)

lemma list_sum_le {l : List ℚ} {t : ℚ} (h : ∀ x ∈ l, x ≤ t) :
    l.sum ≤ l.length * t := by
  induction l with
  | nil => simp
  | cons x l ih =>
    simp only [List.sum_cons, List.length_cons]
    have hx := h x (List.mem_cons_self x l)
    have hl := ih fun y hy => h y (List.mem_cons_of_mem _ hy)
    push_cast
    linarith

lemma le_list_sum {l : List ℚ} {t : ℚ} (h : ∀ x ∈ l, t ≤ x) :
    l.length * t ≤ l.sum := by
  induction l with
  | nil => simp
  | cons x l ih =>
    simp only [List.sum_cons, List.length_cons]
    have hx := h x (List.mem_cons_self x l)
    have hl := ih fun y hy => h y (List.mem_cons_of_mem _ hy)
    push_cast
    linarith

lemma length_cast_pos {l : List ℚ} (hne : l ≠ []) : (0 : ℚ) < l.length := by
  have := List.length_pos.mpr hne
  exact_mod_cast this

lemma cmean_le_of_forall_le {l : List ℚ} {t : ℚ} (hne : l ≠ [])
    (h : ∀ x ∈ l, x ≤ t) : cmean l ≤ t := by
  rw [cmean, div_le_iff (length_cast_pos hne)]
  rw [mul_comm]
  exact list_sum_le h

lemma le_cmean_of_forall_le {l : List ℚ} {t : ℚ} (hne : l ≠ [])
    (h : ∀ x ∈ l, t ≤ x) : t ≤ cmean l := by
  rw [cmean, le_div_iff (length_cast_pos hne)]
  rw [mul_comm]
  exact le_list_sum h

lemma cmean_append_le {p q : List ℚ} (hq : q ≠ [])
    (hpq : ∀ x ∈ p, ∀ y ∈ q, x ≤ y) : cmean (p ++ q) ≤ cmean q := by
  have hqpos := length_cast_pos hq
  have happos : (0 : ℚ) < (p ++ q).length := by
    rw [List.length_append]
    push_cast
    linarith [Nat.cast_nonneg (α := ℚ) p.length]
  have hx : ∀ x ∈ p, x ≤ cmean q := fun x hx =>
    le_cmean_of_forall_le hq fun y hy => hpq x hx y hy
  have hp : p.sum ≤ p.length * cmean q := list_sum_le hx
  have hqs : q.sum = q.length * cmean q := by
    rw [cmean, mul_div_cancel₀ _ (ne_of_gt hqpos)]
  rw [cmean, div_le_iff happos, List.sum_append, List.length_append]
  push_cast
  linarith

lemma cmean_snoc (l : List ℚ) (t : ℚ) (hne : l ≠ []) :
    cmean (l ++ [t]) = (cmean l * l.length + t) / (l.length + 1) := by
  have h0 : (l.length : ℚ) ≠ 0 := ne_of_gt (length_cast_pos hne)
  rw [cmean, cmean, div_mul_cancel₀ _ h0, List.sum_append, List.length_append]
  push_cast
  simp

lemma cmean_singleton (t : ℚ) : cmean [t] = t := by
  simp [cmean]

lemma sorted_snoc {l : List ℚ} {t : ℚ} (hl : List.Sorted (· ≤ ·) l)
    (hb : ∀ x ∈ l, x ≤ t) : List.Sorted (· ≤ ·) (l ++ [t]) := by
  show List.Pairwise (· ≤ ·) (l ++ [t])
  rw [List.pairwise_append]
  refine ⟨hl, List.pairwise_singleton _ _, fun x hx y hy => ?_⟩
  rw [List.mem_singleton.mp hy]
  exact hb x hx

/-- Key invariant for tolerance monotonicity: along a sorted list of tops,
the run with the larger tolerance never closes more clusters, and whenever
the closed counts agree its current cluster is a suffix of the other
run's current cluster. -/
lemma crun_le (a b : ℚ) (hab : a ≤ b) :
    ∀ (ts : List ℚ) (sA sB : CState),
      List.Sorted (· ≤ ·) ts →
      List.Sorted (· ≤ ·) sA.cur → List.Sorted (· ≤ ·) sB.cur →
      sA.cur ≠ [] → sB.cur ≠ [] →
      (∀ u ∈ ts, ∀ x ∈ sA.cur, x ≤ u) →
      (∀ u ∈ ts, ∀ x ∈ sB.cur, x ≤ u) →
      sB.closed ≤ sA.closed →
      (sB.closed = sA.closed → ∃ p, sA.cur = p ++ sB.cur) →
      (crun b sB ts).closed ≤ (crun a sA ts).closed := by
  intro ts
  induction ts with
  | nil =>
    intro sA sB _ _ _ _ _ _ _ hle _
    exact hle
  | cons t ts ih =>
    intro sA sB hsort hsA hsB hAne hBne hbndA hbndB hle hsuf
    have htts : ∀ u ∈ ts, t ≤ u := List.rel_of_sorted_cons hsort
    have hbndA1 : ∀ x ∈ sA.cur, x ≤ t := fun x hx =>
      hbndA t (List.mem_cons_self _ _) x hx
    have hbndB1 : ∀ x ∈ sB.cur, x ≤ t := fun x hx =>
      hbndB t (List.mem_cons_self _ _) x hx
    have hmA : cmean sA.cur ≤ t := cmean_le_of_forall_le hAne hbndA1
    have hmB : cmean sB.cur ≤ t := cmean_le_of_forall_le hBne hbndB1
    have habsA : |t - cmean sA.cur| = t - cmean sA.cur :=
      abs_of_nonneg (sub_nonneg.2 hmA)
    have habsB : |t - cmean sB.cur| = t - cmean sB.cur :=
      abs_of_nonneg (sub_nonneg.2 hmB)
    have hbndA2 : ∀ u ∈ ts, ∀ x ∈ sA.cur ++ [t], x ≤ u := by
      intro u hu x hx
      rcases List.mem_append.mp hx with hx | hx
      · exact hbndA u (List.mem_cons_of_mem _ hu) x hx
      · rw [List.mem_singleton.mp hx]; exact htts u hu
    have hbndB2 : ∀ u ∈ ts, ∀ x ∈ sB.cur ++ [t], x ≤ u := by
      intro u hu x hx
      rcases List.mem_append.mp hx with hx | hx
      · exact hbndB u (List.mem_cons_of_mem _ hu) x hx
      · rw [List.mem_singleton.mp hx]; exact htts u hu
    have hbndT : ∀ u ∈ ts, ∀ x ∈ [t], x ≤ u := by
      intro u hu x hx
      rw [List.mem_singleton.mp hx]
      exact htts u hu
    show (crun b (cstep b sB t) ts).closed ≤ (crun a (cstep a sA t) ts).closed
    by_cases hAm : |t - cmean sA.cur| ≤ a
    · by_cases hBm : |t - cmean sB.cur| ≤ b
      · -- both runs extend their current cluster
        simp only [cstep]
        rw [if_pos hAm, if_pos hBm]
        apply ih ⟨sA.closed, sA.cur ++ [t]⟩ ⟨sB.closed, sB.cur ++ [t]⟩
          hsort.of_cons (sorted_snoc hsA hbndA1) (sorted_snoc hsB hbndB1)
          (by simp) (by simp) hbndA2 hbndB2 hle
        intro heq
        obtain ⟨p, hp⟩ := hsuf heq
        exact ⟨p, by rw [hp, List.append_assoc]⟩
      · -- A extends, B closes: impossible when the counts agree
        have hlt : sB.closed < sA.closed := by
          rcases lt_or_eq_of_le hle with h | heq
          · exact h
          · exfalso
            obtain ⟨p, hp⟩ := hsuf heq
            have hpw : List.Pairwise (· ≤ ·) (p ++ sB.cur) := by
              rw [← hp]; exact hsA
            have hcross : ∀ x ∈ p, ∀ y ∈ sB.cur, x ≤ y :=
              (List.pairwise_append.mp hpw).2.2
            have hAB : cmean sA.cur ≤ cmean sB.cur := by
              rw [hp]; exact cmean_append_le hBne hcross
            apply hBm
            rw [habsB]
            rw [habsA] at hAm
            linarith
        simp only [cstep]
        rw [if_pos hAm, if_neg hBm]
        apply ih ⟨sA.closed, sA.cur ++ [t]⟩ ⟨sB.closed + 1, [t]⟩
          hsort.of_cons (sorted_snoc hsA hbndA1) (List.sorted_singleton t)
          (by simp) (by simp) hbndA2 hbndT (by dsimp only; omega)
        intro _
        exact ⟨sA.cur, rfl⟩
    · by_cases hBm : |t - cmean sB.cur| ≤ b
      · -- A closes, B extends
        simp only [cstep]
        rw [if_neg hAm, if_pos hBm]
        apply ih ⟨sA.closed + 1, [t]⟩ ⟨sB.closed, sB.cur ++ [t]⟩
          hsort.of_cons (List.sorted_singleton t) (sorted_snoc hsB hbndB1)
          (by simp) (by simp) hbndT hbndB2 (by dsimp only; omega)
        intro heq
        exact absurd heq (by dsimp only; omega)
      · -- both close
        simp only [cstep]
        rw [if_neg hAm, if_neg hBm]
        apply ih ⟨sA.closed + 1, [t]⟩ ⟨sB.closed + 1, [t]⟩
          hsort.of_cons (List.sorted_singleton t) (List.sorted_singleton t)
          (by simp) (by simp) hbndT hbndT (by dsimp only; omega)
        intro _
        exact ⟨[], rfl⟩

lemma group_fold_count (tol : ℚ) :
    ∀ (ws : List WordBox) (lines : List (List WordBox))
      (current : List WordBox), current ≠ [] →
      ((ws.foldl (groupStep tol)
          (lines, current, cmean (current.map (·.topv)))).1).length
        = (crun tol ⟨lines.length, current.map (·.topv)⟩
            (ws.map (·.topv))).closed := by
  intro ws
  induction ws with
  | nil =>
    intro lines current _
    rfl
  | cons w ws ih =>
    intro lines current hcur
    have hmapne : current.map (·.topv) ≠ [] := by simpa using hcur
    simp only [List.foldl_cons, List.map_cons, crun, groupStep, cstep]
    by_cases hc : |w.topv - cmean (current.map (·.topv))| ≤ tol
    · rw [if_pos hc, if_pos hc]
      have hstep := ih lines (current ++ [w]) (by simp)
      simp only [List.map_append, List.map_cons, List.map_nil] at hstep
      rw [cmean_snoc _ _ hmapne, List.length_map] at hstep
      exact hstep
    · rw [if_neg hc, if_neg hc]
      have hstep := ih (lines ++ [current]) [w] (by simp)
      simp only [List.map_cons, List.map_nil, cmean_singleton,
        List.length_append, List.length_cons, List.length_nil] at hstep
      exact hstep

lemma group_length_eq_countClusters (ws : List WordBox) (tol : ℚ) :
    (group_words_into_lines ws tol).length
      = countClusters tol ((List.insertionSort wle ws).map (·.topv)) := by
  unfold group_words_into_lines countClusters
  cases hs : List.insertionSort wle ws with
  | nil => rfl
  | cons w rest =>
    simp only [List.map_cons]
    have h := group_fold_count tol rest [] [w] (by simp)
    simp only [List.map_cons, List.map_nil, cmean_singleton,
      List.length_nil] at h
    rw [List.length_append, List.length_cons, List.length_nil]
    rw [h]

lemma sorted_topv_of_sorted_wle {l : List WordBox} (h : List.Sorted wle l) :
    List.Sorted (· ≤ ·) (l.map (·.topv)) :=
  List.Pairwise.map _ (fun _ _ hab => by
    rcases hab with h1 | ⟨h2, _⟩
    · exact le_of_lt h1
    · exact le_of_eq h2) h

/-- C2: increasing the clustering tolerance never increases the number of
clusters `group_words_into_lines` produces for the same word set. -/
theorem c2_tolerance_monotonicity (ws : List WordBox) (t1 t2 : ℚ)
    (h12 : t1 ≤ t2) :
    (group_words_into_lines ws t2).length
      ≤ (group_words_into_lines ws t1).length := by
  rw [group_length_eq_countClusters, group_length_eq_countClusters]
  have hsorted : List.Sorted (· ≤ ·)
      ((List.insertionSort wle ws).map (·.topv)) :=
    sorted_topv_of_sorted_wle (List.sorted_insertionSort wle ws)
  cases htops : (List.insertionSort wle ws).map (·.topv) with
  | nil => simp [countClusters]
  | cons t ts =>
    rw [htops] at hsorted
    simp only [countClusters]
    have hmono := crun_le t1 t2 h12 ts ⟨0, [t]⟩ ⟨0, [t]⟩ hsorted.of_cons
      (List.sorted_singleton t) (List.sorted_singleton t)
      (by simp) (by simp)
      (by
        intro u hu x hx
        rw [List.mem_singleton.mp hx]
        exact List.rel_of_sorted_cons hsorted u hu)
      (by
        intro u hu x hx
        rw [List.mem_singleton.mp hx]
        exact List.rel_of_sorted_cons hsorted u hu)
      le_rfl (fun _ => ⟨[], rfl⟩)
    omega

/-- Witness for C2 at a concrete input: three words with tops
`0, 10, 16`, tolerances `6 ≤ 10`. -/
theorem c2_tolerance_monotonicity_witness :
    (group_words_into_lines
        [⟨some "a", some 0, some 1, some 0, none, none⟩,
         ⟨some "b", some 2, some 3, some 10, none, none⟩,
         ⟨some "c", some 4, some 5, some 16, none, none⟩] 10).length
      ≤ (group_words_into_lines
        [⟨some "a", some 0, some 1, some 0, none, none⟩,
         ⟨some "b", some 2, some 3, some 10, none, none⟩,
         ⟨some "c", some 4, some 5, some 16, none, none⟩] 6).length :=
  c2_tolerance_monotonicity
    [⟨some "a", some 0, some 1, some 0, none, none⟩,
     ⟨some "b", some 2, some 3, some 10, none, none⟩,
     ⟨some "c", some 4, some 5, some 16, none, none⟩] 6 10
    (by with_unfolding_all decide)
